import Mathlib

/-!
Verification of the algorithmic core of `aiopath`: POSIX symlink-aware path
canonicalization (`aiopath/flavours.py`, `_AsyncPosixFlavour.resolve`) and the
glob pattern-selector engine (`aiopath/selectors.py`, `aiopath/path.py`).

Strings are embedded at character level (`Str := List Char`), so every Python
string primitive the source uses (`split`, `rpartition`, `startswith`,
`endswith`, concatenation) is mirrored exactly by a computable Lean function.
The filesystem consumed by the resolver is a finite table: `readlink`
(symlink targets plus the errno returned for non-symlink paths) and the
current working directory.
-/

namespace Aiopath

/-- Character-level strings, mirroring Python `str` restricted to the
separators and names the resolver manipulates. -/
abbrev Str := List Char

/-- POSIX path separator (`_PosixFlavour.sep`). -/
def sep : Char := '/'

/-- Python `rest.startswith(sep)`. -/
def startsWithSep (s : Str) : Bool :=
  match s with
  | [] => false
  | c :: _ => c = sep

/-- Python `path.endswith(sep)`. -/
def endsWithSep (s : Str) : Bool :=
  s.getLast? = some sep

/-- Python `rest.split(sep)` for the one-character separator: `''.split('/')
= ['']`, `'/a'.split('/') = ['', 'a']`, and so on.  `List.splitOn` has
exactly this behaviour. -/
def splitSep (s : Str) : List Str :=
  s.splitOn sep

/-- Python `path.rpartition(sep)[0]`: everything before the last separator,
`''` when the string holds no separator. -/
def rpartBefore (s : Str) : Str :=
  (((s.reverse).dropWhile (fun c => c ≠ sep)).drop 1).reverse

/-- Python `newpath = path + name` or `path + sep + name` depending on whether
`path` already ends with the separator (flavours.py lines 55–59). -/
def appendName (path name : Str) : Str :=
  if endsWithSep path then path ++ name else path ++ sep :: name

/-- errno for "invalid argument": `readlink` on a non-symlink. -/
def EINVAL : Nat := 22

/-- errno for "no such file or directory". -/
def ENOENT : Nat := 2

/-- The filesystem as the resolver consumes it: `symlinks` maps a symlink's
path to its target text; `oserrs` gives the errno that `readlink` raises on a
listed non-symlink path (`EINVAL` for an existing plain file or directory);
any other path raises `ENOENT`.  `cwd` is what `os.getcwd()` returns. -/
structure FS where
  symlinks : List (Str × Str)
  oserrs : List (Str × Nat)
  cwd : Str

/-- Model of `accessor.readlink(newpath)`: the target text of a symlink, or an
`OSError` errno. -/
def readlink (fs : FS) (p : Str) : Except Nat Str :=
  match fs.symlinks.lookup p with
  | some t => .ok t
  | none => .error ((fs.oserrs.lookup p).getD ENOENT)

/-- Errors the resolution can raise: the `RuntimeError("Symlink loop from
...")` carrying the offending path, a propagated `OSError` errno, or
exhaustion of the explicit recursion budget (a model artifact: the budget
`fs.symlinks.length + 1` used by `resolveTop` covers the real recursion,
which reads each symlink at most once per call thanks to the `seen` map). -/
inductive RErr where
  | loop (p : Str)
  | os (errno : Nat)
  | fuel
  deriving DecidableEq

/-- The `seen` dictionary: intermediate path ↦ `none` (currently being
resolved — the loop sentinel) or `some r` (memoized resolution).  Insertion
is cons; `List.lookup` returns the newest binding, giving Python's
overwrite-on-assignment semantics. -/
abbrev Seen := List (Str × Option Str)

/-- The `for name in rest.split(sep)` loop body of `_resolve`
(flavours.py lines 45–86).  `recur` is the recursive `_resolve` call used on
a symlink target, with one unit of recursion budget consumed. -/
def goStep (fs : FS) (strict : Bool)
    (recur : Seen → Str → Str → Except RErr (Str × Seen)) :
    Seen → Str → List Str → Except RErr (Str × Seen)
  | seen, path, [] => .ok (path, seen)
  | seen, path, name :: names =>
    if name = [] ∨ name = ['.'] then
      -- current dir
      goStep fs strict recur seen path names
    else if name = ['.', '.'] then
      -- parent dir
      goStep fs strict recur seen (rpartBefore path) names
    else
      let newpath := appendName path name
      match seen.lookup newpath with
      | some (some v) =>
        -- already seen this path: use cached value
        goStep fs strict recur seen v names
      | some none =>
        -- the symlink is not resolved, so we must have a symlink loop
        .error (.loop newpath)
      | none =>
        match readlink fs newpath with
        | .error e =>
          if e ≠ EINVAL ∧ strict then .error (.os e)
          else
            -- not a symlink, or non-strict mode: leave the path untouched
            goStep fs strict recur seen newpath names
        | .ok target =>
          match recur ((newpath, none) :: seen) path target with
          | .error err => .error err
          | .ok (p, seen2) =>
            goStep fs strict recur ((newpath, some p) :: seen2) p names

/-- Model of `_resolve(path, rest)`: reset the accumulator when `rest` is absolute,
then walk its separator-split components.  The explicit budget decreases by
one on each nested `_resolve` call. -/
def resolveRec (fs : FS) (strict : Bool) :
    Nat → Seen → Str → Str → Except RErr (Str × Seen)
  | 0, _, _, _ => .error .fuel
  | fuel + 1, seen, path, rest =>
    goStep fs strict (resolveRec fs strict fuel) seen
      (if startsWithSep rest then [] else path) (splitSep rest)

/-- Model of `_AsyncPosixFlavour.resolve(path, strict)`: seed with `''` for an
absolute input, else with `getcwd()`; run `_resolve`; return `result or
sep`.  Each nested `_resolve` call is entered only after a fresh symlink
path is recorded in `seen`, so `fs.symlinks.length + 1` levels always
suffice. -/
def resolveTop (fs : FS) (strict : Bool) (p : Str) : Except RErr Str :=
  let base : Str := if startsWithSep p then [] else fs.cwd
  match resolveRec fs strict (fs.symlinks.length + 1) [] base p with
  | .error e => .error e
  | .ok (r, _) => .ok (if r = [] then [sep] else r)

/-! ### Canonical-form predicates used to reason about resolution output

A successful resolution returns a string built only out of separator-joined
segments, each of which was accepted literally after `readlink` failed on it
(or taken from a memoized resolution with the same shape).  The predicates
below express that shape. -/

/-- The absolute path `/s₁/s₂/…/sₙ` built from segment texts
(`pathOfSegs [] = ""`). -/
def pathOfSegs (segs : List Str) : Str :=
  (segs.map (fun n => sep :: n)).flatten

/-- A path segment as the resolver's walk can accept it: nonempty, not `.`,
not `..`, and separator-free. -/
def goodSeg (n : Str) : Prop :=
  n ≠ [] ∧ n ≠ ['.'] ∧ n ≠ ['.', '.'] ∧ sep ∉ n

instance goodSegDec (n : Str) : Decidable (goodSeg n) := by
  unfold goodSeg
  infer_instance

/-- The walk keeps `q` literally exactly when `readlink q` fails, and in
strict mode only an `EINVAL` failure ("not a symlink") is tolerated. -/
def keepFails (fs : FS) (strict : Bool) (q : Str) : Bool :=
  match readlink fs q with
  | .ok _ => false
  | .error e => !strict || e = EINVAL

/-- Canonical form: a separator-joined list of good segments, every prefix
of which the resolver keeps literally on re-reading. -/
def NF (fs : FS) (strict : Bool) (s : Str) : Prop :=
  ∃ segs : List Str, s = pathOfSegs segs ∧ (∀ n ∈ segs, goodSeg n) ∧
    ∀ i < segs.length, keepFails fs strict (pathOfSegs (segs.take (i + 1))) = true

/-- All memoized (`some`) values in `seen` are in canonical form. -/
def SeenNF (fs : FS) (strict : Bool) (seen : Seen) : Prop :=
  ∀ k v, (k, some v) ∈ seen → NF fs strict v

/-! ### Glob engine (`aiopath/selectors.py`, `AsyncPath.glob`/`rglob`)

The directory tree is the finite tree of real directory entries; a symlink
is a leaf carrying only the directory-ness of its (followed) target, since
the selectors never descend through symlinks.  An `errEntry e` is an entry
whose `is_dir()` classification raises `OSError(e)` (see bpo-38894).
Yielded paths are segment lists relative to the glob root
(`_make_child_relpath` appends one name).  A selector's `_select_from` is a
generator: it is modelled as the pair (list of yielded paths, optional
errno of the exception that terminated the generator). -/

/-- errno for "not a directory". -/
def ENOTDIR : Nat := 20

/-- errno for "bad file descriptor". -/
def EBADF : Nat := 9

/-- errno for "too many levels of symbolic links". -/
def ELOOP : Nat := 40

/-- errno for "permission denied" (`PermissionError`). -/
def EACCES : Nat := 13

/-- errno for "operation not permitted" (`PermissionError`). -/
def EPERM : Nat := 1

/-- Model of `pathlib._ignore_error`: the errnos glob probing treats as "does not
exist" (`_IGNORED_ERRNOS = ENOENT, ENOTDIR, EBADF, ELOOP`). -/
def ignorableErr (e : Nat) : Bool :=
  e = ENOENT || e = ENOTDIR || e = EBADF || e = ELOOP

/-- Python maps `OSError` with errno `EACCES` or `EPERM` to
`PermissionError`; `except PermissionError` catches exactly these. -/
def isPermErr (e : Nat) : Bool :=
  e = EACCES || e = EPERM

mutual
/-- A node of the directory tree as the glob engine observes it. -/
inductive FsNode where
  | dir (cs : Entries)
  | file
  | symlink (isDir : Bool)
  | errEntry (e : Nat)
  deriving DecidableEq

/-- Ordered directory entries (the order `scandir` reports). -/
inductive Entries where
  | nil
  | cons (name : Str) (node : FsNode) (rest : Entries)
  deriving DecidableEq
end

/-- Model of `DirEntry.is_dir()` (symlink-following): may raise. -/
def entryIsDir : FsNode → Except Nat Bool
  | .dir _ => .ok true
  | .file => .ok false
  | .symlink b => .ok b
  | .errEntry e => .error e

/-- Model of `DirEntry.is_symlink()`. -/
def entryIsSymlink : FsNode → Bool
  | .symlink _ => true
  | _ => false

/-- The entries `scandir` yields for a node (empty for non-directories,
which the selectors never scan thanks to their `dironly` checks). -/
def childEntries : FsNode → Entries
  | .dir cs => cs
  | _ => .nil

/-- The `Entries` as a plain association list, for stating properties. -/
def entriesList : Entries → List (Str × FsNode)
  | .nil => []
  | .cons n c r => (n, c) :: entriesList r

/-- Child lookup by name (`parent/name` resolution for `_PreciseSelector`). -/
def findEntry (name : Str) : Entries → Option FsNode
  | .nil => none
  | .cons n c rest => if n = name then some c else findEntry name rest

/-- Model of `AsyncPath.is_dir()`: `False` on an ignorable `OSError`, re-raise
otherwise. -/
def pathIsDir (node : FsNode) : Except Nat Bool :=
  match entryIsDir node with
  | .ok b => .ok b
  | .error e => if ignorableErr e then .ok false else .error e

/-- Model of `AsyncPath.exists()` for a present entry (a missing child is handled by
`findEntry` returning `none`): `False` on an ignorable `OSError`, re-raise
otherwise. -/
def pathExists (node : FsNode) : Except Nat Bool :=
  match node with
  | .errEntry e => if ignorableErr e then .ok false else .error e
  | _ => .ok true

/-! #### `fnmatch` pattern matching (`flavour.compile_pattern`) -/

/-- Scan a character-class body for its closing `]`: returns the class
characters and the remaining pattern, or `none` when the bracket is
unmatched. -/
def findClose : Str → Option (Str × Str)
  | [] => none
  | c :: rest =>
    if c = ']' then some ([], rest)
    else
      match findClose rest with
      | some (cls, r) => some (c :: cls, r)
      | none => none

def findClose_length :
    ∀ (l cls r : Str), findClose l = some (cls, r) → r.length < l.length := by
  intro l
  induction l with
  | nil => intro cls r h; cases h
  | cons c rest ih =>
    intro cls r h
    rw [findClose] at h
    by_cases hc : c = ']'
    · rw [if_pos hc] at h
      cases h
      simp
    · rw [if_neg hc] at h
      cases hrec : findClose rest with
      | none => rw [hrec] at h; cases h
      | some pr =>
        obtain ⟨cls', r'⟩ := pr
        rw [hrec] at h
        cases h
        have := ih _ _ hrec
        simp only [List.length_cons]
        omega

/-- Body of a `[...]` class after the optional `!`: a leading `]` is a
literal class member (fnmatch semantics). -/
def splitClassCore : Str → Option (Str × Str)
  | [] => none
  | c :: t =>
    if c = ']' then
      match findClose t with
      | some (cls, r) => some (']' :: cls, r)
      | none => none
    else
      match findClose (c :: t) with
      | some (cls, r) => some (cls, r)
      | none => none

def splitClassCore_length {ps cls r : Str}
    (h : splitClassCore ps = some (cls, r)) : r.length < ps.length := by
  cases ps with
  | nil => cases h
  | cons c t =>
    rw [splitClassCore] at h
    by_cases hc : c = ']'
    · rw [if_pos hc] at h
      cases hfc : findClose t with
      | none => rw [hfc] at h; cases h
      | some pr =>
        obtain ⟨cls', r'⟩ := pr
        rw [hfc] at h
        cases h
        have := findClose_length t _ _ hfc
        simp only [List.length_cons]
        omega
    · rw [if_neg hc] at h
      cases hfc : findClose (c :: t) with
      | none => rw [hfc] at h; cases h
      | some pr =>
        obtain ⟨cls', r'⟩ := pr
        rw [hfc] at h
        cases h
        exact findClose_length (c :: t) _ _ hfc

/-- Parse a character class (after the opening `[`): negation flag (a
leading `!`), class characters, remaining pattern. -/
def splitClass : Str → Option (Bool × Str × Str)
  | [] => none
  | c :: t =>
    if c = '!' then
      match splitClassCore t with
      | some (cls, r) => some (true, cls, r)
      | none => none
    else
      match splitClassCore (c :: t) with
      | some (cls, r) => some (false, cls, r)
      | none => none

def splitClass_length {ps : Str} {neg : Bool} {cls r : Str}
    (h : splitClass ps = some (neg, cls, r)) : r.length < ps.length + 1 := by
  cases ps with
  | nil => cases h
  | cons c t =>
    rw [splitClass] at h
    by_cases hc : c = '!'
    · rw [if_pos hc] at h
      cases hcc : splitClassCore t with
      | none => rw [hcc] at h; cases h
      | some pr =>
        obtain ⟨cls', r'⟩ := pr
        rw [hcc] at h
        cases h
        have := splitClassCore_length hcc
        simp only [List.length_cons]
        omega
    · rw [if_neg hc] at h
      cases hcc : splitClassCore (c :: t) with
      | none => rw [hcc] at h; cases h
      | some pr =>
        obtain ⟨cls', r'⟩ := pr
        rw [hcc] at h
        cases h
        have := splitClassCore_length hcc
        simp only [List.length_cons] at this ⊢
        omega

/-- Does a class body (with `a-b` ranges) match a character? -/
def rangesMatch : Str → Char → Bool
  | a :: '-' :: b :: rest, c =>
    (decide (a ≤ c) && decide (c ≤ b)) || rangesMatch rest c
  | a :: rest, c => (a = c) || rangesMatch rest c
  | [], _ => false

/-- The `fnmatch.fnmatchcase` semantics for the compiled pattern of a single
component: `*` matches any sequence, `?` any one character, `[...]` a
character class (with `!` negation, `a-b` ranges, unmatched `[` literal),
anything else itself. -/
def fnMatch : Str → Str → Bool
  | [], [] => true
  | [], _ :: _ => false
  | '*' :: ps, [] => fnMatch ps []
  | '*' :: ps, c :: s => fnMatch ps (c :: s) || fnMatch ('*' :: ps) s
  | '?' :: _, [] => false
  | '?' :: ps, _ :: s => fnMatch ps s
  | '[' :: ps, [] => false
  | '[' :: ps, c :: s =>
    match hsc : splitClass ps with
    | none => c = '[' && fnMatch ps s
    | some (neg, cls, rest) => (rangesMatch cls c).xor neg && fnMatch rest s
  | q :: ps, [] => false
  | q :: ps, c :: s => q = c && fnMatch ps s
termination_by p s => (p.length, s.length)
decreasing_by
  all_goals simp_wf
  all_goals first
    | exact Prod.Lex.left _ _ (by omega)
    | exact Prod.Lex.right _ (by omega)
    | (have hb := splitClass_length hsc
       exact Prod.Lex.left _ _ (by omega))

/-! #### Selector compilation (`_make_selector`, `_AsyncSelector.__init__`) -/

/-- Model of `pathlib._is_wildcard_pattern`. -/
def isWildcardPattern (pat : Str) : Bool :=
  pat.contains '*' || pat.contains '?' || pat.contains '['

/-- Python `'**' in pat`. -/
def containsStarStar : Str → Bool
  | '*' :: '*' :: _ => true
  | _ :: rest => containsStarStar rest
  | [] => false

/-- Errors the glob entry points and the compiler can raise:
`ValueError("Unacceptable pattern")` for an empty pattern,
`NotImplementedError` for a drive/root prefix, `ValueError("Invalid
pattern: '**' can only be an entire path component")`, and the `IndexError`
of `pattern_parts[0]` on an empty component tuple. -/
inductive GlobError where
  | emptyPattern
  | nonRelative
  | invalidPattern
  | indexErr
  deriving DecidableEq

/-- The compiled selector chain.  Each non-terminal node carries its
`dironly` flag and its successor, as built by `_AsyncSelector.__init__`;
a wildcard node stores the compiled matcher `flavour.compile_pattern(pat)`. -/
inductive Sel where
  | term
  | precise (name : Str) (dironly : Bool) (succ : Sel)
  | wildcard (matcher : Str → Bool) (dironly : Bool) (succ : Sel)
  | recur (dironly : Bool) (succ : Sel)

/-- Model of `_make_selector(pattern_parts, flavour)`: classify the first component
(`**` whole-component, fused `**` rejected, wildcard, literal), then build
the successor chain eagerly from the remaining components —
`_AsyncSelector.__init__` recurses before any filesystem access, with
`dironly = (child_parts nonempty)`. -/
def makeSelector : List Str → Except GlobError Sel
  | [] => .error .indexErr
  | pat :: rest =>
    if pat = ['*', '*'] then
      match rest with
      | [] => .ok (.recur false .term)
      | q :: r =>
        match makeSelector (q :: r) with
        | .error e => .error e
        | .ok s => .ok (.recur true s)
    else if containsStarStar pat then
      .error .invalidPattern
    else if isWildcardPattern pat then
      match rest with
      | [] => .ok (.wildcard (fnMatch pat) false .term)
      | q :: r =>
        match makeSelector (q :: r) with
        | .error e => .error e
        | .ok s => .ok (.wildcard (fnMatch pat) true s)
    else
      match rest with
      | [] => .ok (.precise pat false .term)
      | q :: r =>
        match makeSelector (q :: r) with
        | .error e => .error e
        | .ok s => .ok (.precise pat true s)

/-- Model of `_PosixFlavour.parse_parts((pattern,))` restricted to what `glob` needs:
the root (`''`, `'/'`, or the special `'//'`) and the relative components
with empty and `.` parts dropped. -/
def parseParts (pattern : Str) : Str × List Str :=
  let stripped := pattern.dropWhile (· == sep)
  let root : Str :=
    if startsWithSep pattern then
      if pattern.length - stripped.length = 2 then [sep, sep] else [sep]
    else []
  (root, (stripped.splitOn sep).filter (fun x => x != [] && x != ['.']))

/-- The validation `AsyncPath.glob` performs before compiling: empty
patterns are rejected, then drive/root prefixes. -/
def globParse (pattern : Str) : Except GlobError (List Str) :=
  if pattern = [] then .error .emptyPattern
  else
    let (root, parts) := parseParts pattern
    if root ≠ [] then .error .nonRelative
    else .ok parts

/-- The validation `AsyncPath.rglob` performs: only the drive/root check —
there is no emptiness check — then `'**'` is prepended. -/
def rglobParse (pattern : Str) : Except GlobError (List Str) :=
  let (root, parts) := parseParts pattern
  if root ≠ [] then .error .nonRelative
  else .ok (['*', '*'] :: parts)

/-! #### Selection

A selector's `_select_from` is an async generator; its observable behaviour
is the list of yielded paths plus the error (if any) that escaped after
them.  `catchPerm` is an `except PermissionError: return` wrapped around a
generator body: the error vanishes, the yields stand. -/

/-- Generator outcome: yielded paths and the escaping errno, if any. -/
abbrev GlobRes := List (List Str) × Option Nat

/-- An `except PermissionError: return` around a generator body. -/
def catchPerm : GlobRes → GlobRes
  | (ys, some e) => if isPermErr e then (ys, none) else (ys, some e)
  | (ys, none) => (ys, none)

mutual
/-- Model of `_RecursiveWildcardSelector._iterate_directories`: yield the parent
itself, then recurse into children that are directories and not symlinks;
an ignorable classification error skips the entry, any other propagates —
into this generator's own `except PermissionError` wrapper. -/
def iterDirs (path : List Str) : FsNode → List (List Str × FsNode) × Option Nat
  | .dir cs =>
    match iterDirsGo path cs with
    | (ys, some e) =>
      if isPermErr e then ((path, .dir cs) :: ys, none)
      else ((path, .dir cs) :: ys, some e)
    | (ys, none) => ((path, .dir cs) :: ys, none)
  | node => ([(path, node)], none)

/-- The `async for entry in scandir(parent_path)` loop of
`_iterate_directories`. -/
def iterDirsGo (path : List Str) : Entries → List (List Str × FsNode) × Option Nat
  | .nil => ([], none)
  | .cons name child rest =>
    match entryIsDir child with
    | .error e =>
      if ignorableErr e then iterDirsGo path rest else ([], some e)
    | .ok d =>
      if d && !entryIsSymlink child then
        match iterDirs (path ++ [name]) child with
        | (ys, some e) => (ys, some e)
        | (ys, none) =>
          match iterDirsGo path rest with
          | (zs, e2) => (ys ++ zs, e2)
      else iterDirsGo path rest
end

/-- The `async for entry in scandir(parent_path)` loop of
`_WildcardSelector._select_from`: under `dironly`, classify first (ignorable
error skips the entry, any other is re-raised); then match the name and
delegate matched children to the successor. -/
def wildGo (m : Str → Bool) (dironly : Bool)
    (succSelect : List Str → FsNode → GlobRes) (path : List Str) :
    Entries → GlobRes
  | .nil => ([], none)
  | .cons name child rest =>
    match (if dironly then entryIsDir child else .ok true) with
    | .error e =>
      if ignorableErr e then wildGo m dironly succSelect path rest
      else ([], some e)
    | .ok false => wildGo m dironly succSelect path rest
    | .ok true =>
      if m name then
        match succSelect (path ++ [name]) child with
        | (ys, some e) => (ys, some e)
        | (ys, none) =>
          match wildGo m dironly succSelect path rest with
          | (zs, e2) => (ys ++ zs, e2)
      else wildGo m dironly succSelect path rest

/-- The `if p not in yielded: yield p; yielded.add(p)` deduplication of
`_RecursiveWildcardSelector._select_from`. -/
def dedupAppend (yielded : List (List Str)) : List (List Str) → List (List Str)
  | [] => []
  | y :: ys =>
    if y ∈ yielded then dedupAppend yielded ys
    else y :: dedupAppend (y :: yielded) ys

/-- Drive the successor over the starting points `_iterate_directories`
yielded, deduplicating; the iteration error `errS` of the directory
enumeration surfaces only after every yielded starting point has been
consumed. -/
def recurGo (succSelect : List Str → FsNode → GlobRes)
    (yielded : List (List Str)) :
    List (List Str × FsNode) → Option Nat → GlobRes
  | [], errS => ([], errS)
  | (p, n) :: rest, errS =>
    match succSelect p n with
    | (ys, some e) => (dedupAppend yielded ys, some e)
    | (ys, none) =>
      match dedupAppend yielded ys with
      | em =>
        match recurGo succSelect (em ++ yielded) rest errS with
        | (zs, e2) => (em ++ zs, e2)

/-- Model of `_select_from` of each selector kind (selectors.py).  `term` yields its
input; `precise` probes one named child (`is_dir` when `dironly`, `exists`
otherwise); `wildcard` filters the directory listing through its matcher;
`recur` feeds every `_iterate_directories` starting point to its successor,
deduplicating.  Every kind but `term` swallows a `PermissionError` escaping
its body. -/
def selectFrom : Sel → List Str → FsNode → GlobRes
  | .term => fun path _ => ([path], none)
  | .precise name dironly succ => fun path node =>
    match findEntry name (childEntries node) with
    | none => ([], none)
    | some c =>
      match (if dironly then pathIsDir c else pathExists c) with
      | .error e => catchPerm ([], some e)
      | .ok false => ([], none)
      | .ok true => catchPerm (selectFrom succ (path ++ [name]) c)
  | .wildcard m dironly succ => fun path node =>
    catchPerm (wildGo m dironly (selectFrom succ) path (childEntries node))
  | .recur _ succ => fun path node =>
    match iterDirs path node with
    | (starts, errS) => catchPerm (recurGo (selectFrom succ) [] starts errS)

/-- Model of `_AsyncSelector.select_from`: short-circuit when the root is not a
directory, else run the chain. -/
def selectTop (sel : Sel) (root : FsNode) : GlobRes :=
  match pathIsDir root with
  | .error e => ([], some e)
  | .ok false => ([], none)
  | .ok true => selectFrom sel [] root

/-- Model of `AsyncPath.glob(pattern)`: validate, compile, select. -/
def globRun (root : FsNode) (pattern : Str) : Except GlobError GlobRes :=
  match globParse pattern with
  | .error e => .error e
  | .ok parts =>
    match makeSelector parts with
    | .error e => .error e
    | .ok sel => .ok (selectTop sel root)

/-- Model of `AsyncPath.rglob(pattern)`: validate, prepend `'**'`, compile, select. -/
def rglobRun (root : FsNode) (pattern : Str) : Except GlobError GlobRes :=
  match rglobParse pattern with
  | .error e => .error e
  | .ok parts =>
    match makeSelector parts with
    | .error e => .error e
    | .ok sel => .ok (selectTop sel root)

/-! #### Reachability predicate for the recursive-wildcard claims -/

/-- Reachability `DirDescend node suffix m`: `m` is reached from `node` by a chain of
children that are directories and not symlinks — the only chain
`_iterate_directories` ever follows. -/
inductive DirDescend (node : FsNode) : List Str → FsNode → Prop where
  | refl : DirDescend node [] node
  | step {p : List Str} {m : FsNode} {name : Str} {c : FsNode} :
      DirDescend node p m → (name, c) ∈ entriesList (childEntries m) →
      entryIsDir c = .ok true → entryIsSymlink c = false →
      DirDescend node (p ++ [name]) c

/-- A node that is a real directory. -/
def IsDirNode : FsNode → Prop
  | .dir _ => True
  | _ => False

-- Sanity checks on concrete filesystems (kernel-evaluable).
example :
    resolveTop ⟨[], [(['/', 'a'], EINVAL)], []⟩ true ['/', 'a'] = .ok ['/', 'a'] := rfl

example :
    resolveTop ⟨[], [], []⟩ true ['/', 'a'] = .error (.os ENOENT) := rfl

example :
    resolveTop ⟨[(['/', 'a'], ['/', 'b'])], [], []⟩ false ['/', 'a', '/', 'c']
      = .ok ['/', 'b', '/', 'c'] := rfl

example :
    resolveTop ⟨[(['/', 'a'], ['/', 'b']), (['/', 'b'], ['/', 'a'])], [], []⟩
      true ['/', 'a'] = .error (.loop ['/', 'a']) := rfl

example :
    resolveTop ⟨[(['/', 'a'], ['/', 'b']), (['/', 'b'], ['/', 'a'])], [], []⟩
      false ['/', 'a'] = .error (.loop ['/', 'a']) := rfl

example :
    resolveTop ⟨[], [], []⟩ true ['/', '.', '.', '/', '.', '.'] = .ok ['/'] := rfl

/-- A `readlink` succeeding means the path is a key of the symlink table. -/
theorem readlink_ok_lookup {fs : FS} {p t : Str} (h : readlink fs p = .ok t) :
    fs.symlinks.lookup p = some t := by
  unfold readlink at h
  cases hl : fs.symlinks.lookup p with
  | none => rw [hl] at h; cases h
  | some v => rw [hl] at h; cases h; rfl

/-- A successful lookup needs a nonempty table. -/
theorem lookup_some_one_le_length {α β : Type} [BEq α]
    {l : List (α × β)} {a : α} {x : β} (ha : l.lookup a = some x) :
    1 ≤ l.length := by
  cases l with
  | nil => cases ha
  | cons e es => simp

/-- Two successful lookups at distinct keys force at least two entries. -/
theorem lookup_two_le_length {α β : Type} [BEq α] [LawfulBEq α]
    {l : List (α × β)} {a b : α} {x y : β}
    (ha : l.lookup a = some x) (hb : l.lookup b = some y) (hab : a ≠ b) :
    2 ≤ l.length := by
  induction l with
  | nil => cases ha
  | cons e es ih =>
    obtain ⟨k, v⟩ := e
    by_cases hk : a = k
    · have hbk : (b == k) = false := by
        simp only [beq_eq_false_iff_ne, ne_eq]
        intro h; exact hab (hk ▸ h ▸ rfl)
      rw [List.lookup_cons, hbk] at hb
      simp only [cond_false] at hb
      have h1 := lookup_some_one_le_length hb
      simp only [List.length_cons]
      omega
    · have hak : (a == k) = false := by
        simp only [beq_eq_false_iff_ne, ne_eq]; exact hk
      rw [List.lookup_cons, hak] at ha
      simp only [cond_false] at ha
      by_cases hbk : b = k
      · have h1 := lookup_some_one_le_length ha
        simp only [List.length_cons]
        omega
      · have hbk' : (b == k) = false := by
          simp only [beq_eq_false_iff_ne, ne_eq]; exact hbk
        rw [List.lookup_cons, hbk'] at hb
        simp only [cond_false] at hb
        have := ih ha hb
        simp only [List.length_cons]
        omega

/-- On any filesystem where `/a` is a symlink to `/b` and `/b` a symlink
back to `/a`, `resolve("/a")` hits the `seen[newpath] is None` sentinel and
raises the symlink-loop error carrying `/a`, in both strict and non-strict
mode (the loop check in `_resolve` does not consult `strict`). -/
theorem resolve_mutual_loop (fs : FS) (strict : Bool)
    (ha : readlink fs ['/', 'a'] = .ok ['/', 'b'])
    (hb : readlink fs ['/', 'b'] = .ok ['/', 'a']) :
    resolveTop fs strict ['/', 'a'] = .error (.loop ['/', 'a']) := by
  have hlen : 2 ≤ fs.symlinks.length :=
    lookup_two_le_length (readlink_ok_lookup ha) (readlink_ok_lookup hb)
      (by decide)
  obtain ⟨m, hm⟩ : ∃ m, fs.symlinks.length = m + 2 :=
    ⟨fs.symlinks.length - 2, by omega⟩
  have hsA : splitSep ['/', 'a'] = [[], ['a']] := rfl
  have hsB : splitSep ['/', 'b'] = [[], ['b']] := rfl
  simp [resolveTop, hm, resolveRec, goStep, hsA, hsB, ha, hb,
    startsWithSep, appendName, endsWithSep, sep, List.lookup]

/-- C1: on every filesystem in which two symlinks point at each other
(`/a -> /b` and `/b -> /a`), `resolve("/a", strict := true)` on the POSIX
flavour raises the dedicated symlink-loop error (`RuntimeError("Symlink loop
from ...")`) carrying the offending path `/a` — it neither returns a path
nor fails to terminate. -/
theorem claim1_mutual_symlink_loop_strict (fs : FS)
    (ha : readlink fs ['/', 'a'] = .ok ['/', 'b'])
    (hb : readlink fs ['/', 'b'] = .ok ['/', 'a']) :
    resolveTop fs true ['/', 'a'] = .error (.loop ['/', 'a']) :=
  resolve_mutual_loop fs true ha hb

/-- Witness for C1 at the concrete two-symlink filesystem. -/
theorem claim1_witness :
    resolveTop ⟨[(['/', 'a'], ['/', 'b']), (['/', 'b'], ['/', 'a'])], [], []⟩
      true ['/', 'a'] = .error (.loop ['/', 'a']) :=
  claim1_mutual_symlink_loop_strict
    ⟨[(['/', 'a'], ['/', 'b']), (['/', 'b'], ['/', 'a'])], [], []⟩ rfl rfl

/-- C2 counterexample: with the cycle `/a -> /b -> /a`, non-strict
resolution `resolve("/a", strict := false)` does raise the symlink-loop
error — the loop check in `_resolve` never consults the `strict` flag — so
the claim that non-strict mode "does not raise any error" is false. -/
theorem claim2_counterexample :
    resolveTop ⟨[(['/', 'a'], ['/', 'b']), (['/', 'b'], ['/', 'a'])], [], []⟩
      false ['/', 'a'] = .error (.loop ['/', 'a']) := rfl

/-- C2 amended: on every filesystem with the mutual symlink cycle
`/a -> /b -> /a`, `resolve("/a", strict := false)` still terminates, but it
terminates by raising the same symlink-loop error as strict mode: loop
detection is independent of the `strict` flag. -/
theorem claim2_amended_nonstrict_loop_raises (fs : FS)
    (ha : readlink fs ['/', 'a'] = .ok ['/', 'b'])
    (hb : readlink fs ['/', 'b'] = .ok ['/', 'a']) :
    resolveTop fs false ['/', 'a'] = .error (.loop ['/', 'a']) :=
  resolve_mutual_loop fs false ha hb

/-- Witness for the amended C2 at the concrete two-symlink filesystem. -/
theorem claim2_witness :
    resolveTop ⟨[(['/', 'a'], ['/', 'b']), (['/', 'b'], ['/', 'a'])], [], []⟩
      false ['/', 'a'] = .error (.loop ['/', 'a']) :=
  claim2_amended_nonstrict_loop_raises
    ⟨[(['/', 'a'], ['/', 'b']), (['/', 'b'], ['/', 'a'])], [], []⟩ rfl rfl

/-- C7: `resolve("/../..")` terminates and returns the root `/` on every
filesystem and in both modes: a `..` with an empty accumulated result is a
safe no-op (`''.rpartition('/')[0] = ''`), so underflow never escapes above
the root, never raises, and the empty final string is replaced by the root
separator. -/
theorem claim7_dotdot_underflow_root (fs : FS) (strict : Bool) :
    resolveTop fs strict ['/', '.', '.', '/', '.', '.'] = .ok ['/'] := by
  have hsplit : splitSep ['/', '.', '.', '/', '.', '.']
      = [[], ['.', '.'], ['.', '.']] := rfl
  have hrp : rpartBefore [] = [] := rfl
  simp [resolveTop, resolveRec, goStep, hsplit, hrp, startsWithSep, sep]

/-! ### Path-shape lemmas -/

theorem pathOfSegs_cons (a : Str) (t : List Str) :
    pathOfSegs (a :: t) = (sep :: a) ++ pathOfSegs t := by
  simp [pathOfSegs]

theorem pathOfSegs_append (xs ys : List Str) :
    pathOfSegs (xs ++ ys) = pathOfSegs xs ++ pathOfSegs ys := by
  simp [pathOfSegs]

theorem pathOfSegs_cons_ne_nil (a : Str) (t : List Str) :
    pathOfSegs (a :: t) ≠ [] := by
  simp [pathOfSegs_cons]

theorem startsWithSep_pathOfSegs (a : Str) (t : List Str) :
    startsWithSep (pathOfSegs (a :: t)) = true := by
  simp [pathOfSegs_cons, startsWithSep]

/-- A canonical path never ends with the separator, so `appendName` always
inserts one. -/
theorem endsWithSep_pathOfSegs {segs : List Str} (h : ∀ n ∈ segs, goodSeg n) :
    endsWithSep (pathOfSegs segs) = false := by
  rcases List.eq_nil_or_concat segs with rfl | ⟨init, l, rfl⟩
  · rfl
  · simp only [List.concat_eq_append] at h ⊢
    have hl := h l (by simp)
    obtain ⟨hne, -, -, hsep⟩ := hl
    rw [pathOfSegs_append]
    unfold endsWithSep
    rw [List.getLast?_append_of_ne_nil _ (pathOfSegs_cons_ne_nil l [])]
    rw [pathOfSegs_cons]
    cases hll : (sep :: l ++ pathOfSegs []).getLast? with
    | none => simp
    | some c =>
      simp only [pathOfSegs, List.map_nil, List.flatten_nil, List.append_nil] at hll
      have hc : c ∈ sep :: l := by
        have := @List.mem_getLast?_eq_getLast Char (sep :: l) c (by rw [hll]; rfl)
        obtain ⟨hne', rfl⟩ := this
        exact List.getLast_mem hne'
      rcases List.mem_cons.mp hc with rfl | hcl
      · -- c = sep: but getLast? of sep::l with l ≠ [] is getLast? l, and sep ∉ l
        have : (sep :: l).getLast? = l.getLast? := by
          cases l with
          | nil => exact absurd rfl hne
          | cons x xs => rw [List.getLast?_cons_cons]
        rw [this] at hll
        have := @List.mem_getLast?_eq_getLast Char l sep (by rw [hll]; rfl)
        obtain ⟨hne', heq⟩ := this
        exact absurd (heq ▸ List.getLast_mem hne') hsep
      · simp only [Option.some.injEq, decide_eq_false_iff_not]
        intro hcs
        exact hsep (hcs ▸ hcl)

theorem appendName_pathOfSegs {segs : List Str} (h : ∀ n ∈ segs, goodSeg n)
    (n : Str) : appendName (pathOfSegs segs) n = pathOfSegs (segs ++ [n]) := by
  unfold appendName
  rw [endsWithSep_pathOfSegs h]
  simp only [Bool.false_eq_true, if_false, pathOfSegs_append, pathOfSegs_cons]
  simp [pathOfSegs]

theorem rpartBefore_pathOfSegs {segs : List Str} (h : ∀ n ∈ segs, goodSeg n) :
    rpartBefore (pathOfSegs segs) = pathOfSegs segs.dropLast := by
  rcases List.eq_nil_or_concat segs with rfl | ⟨init, l, rfl⟩
  · rfl
  · simp only [List.concat_eq_append] at h ⊢
    obtain ⟨-, -, -, hsep⟩ := h l (by simp)
    rw [pathOfSegs_append, List.dropLast_concat]
    unfold rpartBefore
    rw [List.reverse_append]
    have hrev : (pathOfSegs [l]).reverse = l.reverse ++ [sep] := by
      simp [pathOfSegs]
    rw [hrev, List.append_assoc]
    rw [List.dropWhile_append_of_pos (by
      intro a ha
      have : a ∈ l := List.mem_reverse.mp ha
      simp only [decide_eq_true_eq]
      intro heq
      exact hsep (heq ▸ this))]
    simp

/-! ### Canonical-form closure lemmas -/

theorem NF_nil (fs : FS) (strict : Bool) : NF fs strict [] := by
  refine ⟨[], rfl, ?_, ?_⟩
  · intro n hn; cases hn
  · intro i hi; cases hi

theorem lookup_mem {α β : Type} [BEq α] [LawfulBEq α]
    {l : List (α × β)} {k : α} {x : β} (h : l.lookup k = some x) :
    (k, x) ∈ l := by
  induction l with
  | nil => cases h
  | cons e es ih =>
    obtain ⟨k', v⟩ := e
    rw [List.lookup_cons] at h
    by_cases hk : (k == k') = true
    · rw [hk] at h
      simp only [cond_true, Option.some.injEq] at h
      subst h
      have : k = k' := by exact eq_of_beq hk
      subst this
      exact List.mem_cons_self _ _
    · rw [Bool.not_eq_true] at hk
      rw [hk] at h
      simp only [cond_false] at h
      exact List.mem_cons_of_mem _ (ih h)

/-- No element of a separator-split string contains the separator. -/
theorem splitSep_not_mem_sep {s : Str} : ∀ n ∈ splitSep s, sep ∉ n := by
  induction s with
  | nil =>
    intro n hn
    simp only [splitSep, List.splitOn_nil, List.mem_singleton] at hn
    subst hn
    exact List.not_mem_nil sep
  | cons c cs ih =>
    intro n hn
    simp only [splitSep, List.splitOn] at hn ih
    rw [List.splitOnP_cons] at hn
    by_cases hc : (c == sep) = true
    · rw [if_pos hc] at hn
      rcases List.mem_cons.mp hn with rfl | hn'
      · exact List.not_mem_nil sep
      · exact ih n hn'
    · rw [Bool.not_eq_true] at hc
      rw [hc] at hn
      simp only [Bool.false_eq_true, if_false] at hn
      obtain ⟨h₀, t, hsplit⟩ : ∃ h₀ t, cs.splitOnP (· == sep) = h₀ :: t := by
        cases hcs : cs.splitOnP (· == sep) with
        | nil => exact absurd hcs (List.splitOnP_ne_nil _ cs)
        | cons h₀ t => exact ⟨h₀, t, rfl⟩
      rw [hsplit] at hn
      simp only [List.modifyHead] at hn
      rcases List.mem_cons.mp hn with rfl | hn'
      · intro hmem
        rcases List.mem_cons.mp hmem with hcsep | hh₀
        · exact absurd (beq_iff_eq.mpr hcsep.symm) (by rw [hc]; simp)
        · exact ih h₀ (by rw [hsplit]; exact List.mem_cons_self _ _) hh₀
      · exact ih n (by rw [hsplit]; exact List.mem_cons_of_mem _ hn')

theorem NF_rpartBefore {fs : FS} {strict : Bool} {path : Str}
    (h : NF fs strict path) : NF fs strict (rpartBefore path) := by
  obtain ⟨segs, rfl, hgood, hpre⟩ := h
  rw [rpartBefore_pathOfSegs hgood]
  refine ⟨segs.dropLast, rfl, ?_, ?_⟩
  · intro n hn
    exact hgood n (List.dropLast_subset segs hn)
  · intro i hi
    rw [List.length_dropLast] at hi
    have htake : segs.dropLast.take (i + 1) = segs.take (i + 1) := by
      rw [List.dropLast_eq_take, List.take_take]
      congr 1
      omega
    rw [htake]
    exact hpre i (by omega)

theorem NF_appendKeep {fs : FS} {strict : Bool} {path n : Str}
    (h : NF fs strict path) (hn : goodSeg n)
    (hkeep : keepFails fs strict (appendName path n) = true) :
    NF fs strict (appendName path n) := by
  obtain ⟨segs, rfl, hgood, hpre⟩ := h
  rw [appendName_pathOfSegs hgood] at hkeep ⊢
  have hgood' : ∀ m ∈ segs ++ [n], goodSeg m := by
    intro m hm
    rcases List.mem_append.mp hm with hm' | hm'
    · exact hgood m hm'
    · rw [List.mem_singleton] at hm'
      subst hm'
      exact hn
  refine ⟨segs ++ [n], rfl, hgood', ?_⟩
  intro i hi
  rw [List.length_append, List.length_singleton] at hi
  by_cases hlt : i < segs.length
  · rw [List.take_append_of_le_length (by omega)]
    exact hpre i hlt
  · have hieq : i = segs.length := by omega
    subst hieq
    rw [List.take_of_length_le (by simp)]
    exact hkeep

theorem seenNF_lookup {fs : FS} {strict : Bool} {seen : Seen} {k : Str}
    {v : Str} (hs : SeenNF fs strict seen)
    (h : seen.lookup k = some (some v)) : NF fs strict v :=
  hs k v (lookup_mem h)

theorem SeenNF_nil (fs : FS) (strict : Bool) : SeenNF fs strict [] := by
  intro k v hm; cases hm

theorem SeenNF_cons_none {fs : FS} {strict : Bool} {seen : Seen} {k : Str}
    (h : SeenNF fs strict seen) : SeenNF fs strict ((k, none) :: seen) := by
  intro k' v hm
  rcases List.mem_cons.mp hm with heq | hm'
  · cases heq
  · exact h k' v hm'

theorem SeenNF_cons_some {fs : FS} {strict : Bool} {seen : Seen} {k v : Str}
    (hv : NF fs strict v) (h : SeenNF fs strict seen) :
    SeenNF fs strict ((k, some v) :: seen) := by
  intro k' v' hm
  rcases List.mem_cons.mp hm with heq | hm'
  · cases heq; exact hv
  · exact h k' v' hm'

/-- Preservation along the component walk: starting from a canonical
accumulator and a `seen` map whose memoized values are canonical, a
successful walk ends in a canonical accumulator and such a `seen` map.
Generic in the function used for nested `_resolve` calls. -/
theorem goStep_NF_aux (fs : FS) (strict : Bool)
    (recur : Seen → Str → Str → Except RErr (Str × Seen))
    (hrec : ∀ seen path rest r seen', SeenNF fs strict seen →
      NF fs strict path → recur seen path rest = .ok (r, seen') →
      NF fs strict r ∧ SeenNF fs strict seen') :
    ∀ names seen path r seen', SeenNF fs strict seen → NF fs strict path →
      (∀ n ∈ names, sep ∉ n) →
      goStep fs strict recur seen path names = .ok (r, seen') →
      NF fs strict r ∧ SeenNF fs strict seen' := by
  intro names
  induction names with
  | nil =>
    intro seen path r seen' hs hp _ h
    rw [goStep] at h
    cases h
    exact ⟨hp, hs⟩
  | cons name names ih =>
    intro seen path r seen' hs hp hn h
    have hnames : ∀ n ∈ names, sep ∉ n :=
      fun n hm => hn n (List.mem_cons_of_mem _ hm)
    have hname : sep ∉ name := hn name (List.mem_cons_self _ _)
    rw [goStep] at h
    by_cases h1 : name = [] ∨ name = ['.']
    · rw [if_pos h1] at h
      exact ih seen path r seen' hs hp hnames h
    · rw [if_neg h1] at h
      by_cases h2 : name = ['.', '.']
      · rw [if_pos h2] at h
        exact ih seen (rpartBefore path) r seen' hs (NF_rpartBefore hp) hnames h
      · rw [if_neg h2] at h
        simp only [] at h
        have hgoodname : goodSeg name :=
          ⟨fun h' => h1 (Or.inl h'), fun h' => h1 (Or.inr h'), h2, hname⟩
        cases hlook : seen.lookup (appendName path name) with
        | some ov =>
          cases ov with
          | some v =>
            simp only [hlook] at h
            exact ih seen v r seen' hs (seenNF_lookup hs hlook) hnames h
          | none =>
            simp only [hlook] at h
            cases h
        | none =>
          simp only [hlook] at h
          cases hread : readlink fs (appendName path name) with
          | error e =>
            simp only [hread] at h
            by_cases hcond : e ≠ EINVAL ∧ strict
            · rw [if_pos hcond] at h
              cases h
            · rw [if_neg hcond] at h
              have hkeep : keepFails fs strict (appendName path name) = true := by
                unfold keepFails
                rw [hread]
                cases strict with
                | false => simp
                | true =>
                  have : e = EINVAL := by
                    by_contra hne
                    exact hcond ⟨hne, rfl⟩
                  subst this
                  simp
              exact ih seen (appendName path name) r seen' hs
                (NF_appendKeep hp hgoodname hkeep) hnames h
          | ok target =>
            simp only [hread] at h
            cases hrecur : recur ((appendName path name, none) :: seen) path target with
            | error err =>
              simp only [hrecur] at h
              cases h
            | ok pr =>
              obtain ⟨p, seen2⟩ := pr
              simp only [hrecur] at h
              obtain ⟨hNFp, hSeen2⟩ :=
                hrec ((appendName path name, none) :: seen) path target p seen2
                  (SeenNF_cons_none hs) hp hrecur
              exact ih ((appendName path name, some p) :: seen2) p r seen'
                (SeenNF_cons_some hNFp hSeen2) hNFp hnames h

/-- Preservation for `_resolve` at every recursion budget. -/
theorem resolveRec_NF (fs : FS) (strict : Bool) :
    ∀ fuel seen path rest r seen', SeenNF fs strict seen →
      NF fs strict path →
      resolveRec fs strict fuel seen path rest = .ok (r, seen') →
      NF fs strict r ∧ SeenNF fs strict seen' := by
  intro fuel
  induction fuel with
  | zero =>
    intro seen path rest r seen' _ _ h
    rw [resolveRec] at h
    cases h
  | succ fuel ih =>
    intro seen path rest r seen' hs hp h
    rw [resolveRec] at h
    refine goStep_NF_aux fs strict (resolveRec fs strict fuel)
      (fun s2 p2 r2 rr ss hss hpp hh => ih s2 p2 r2 rr ss hss hpp hh)
      (splitSep rest) seen _ r seen' hs ?_ (splitSep_not_mem_sep) h
    by_cases hstart : startsWithSep rest = true
    · rw [if_pos hstart]
      exact NF_nil fs strict
    · rw [if_neg hstart]
      exact hp

/-- Splitting `a ++ "/s₁/…/sₙ"` on the separator gives `a` followed by the
segments, when neither `a` nor any segment contains the separator. -/
theorem splitOnP_append_pathOfSegs :
    ∀ (t : List Str) (a : Str), sep ∉ a → (∀ n ∈ t, sep ∉ n) →
      (a ++ pathOfSegs t).splitOnP (· == sep) = a :: t := by
  intro t
  induction t with
  | nil =>
    intro a ha _
    simp only [pathOfSegs, List.map_nil, List.flatten_nil, List.append_nil]
    apply List.splitOnP_eq_single
    intro x hx
    simp only [beq_iff_eq]
    intro hxs
    exact ha (hxs ▸ hx)
  | cons b t' ih =>
    intro a ha ht
    have hb : sep ∉ b := ht b (List.mem_cons_self _ _)
    have ht' : ∀ n ∈ t', sep ∉ n := fun n hn => ht n (List.mem_cons_of_mem _ hn)
    rw [pathOfSegs_cons]
    have hshape : a ++ ((sep :: b) ++ pathOfSegs t') = a ++ sep :: (b ++ pathOfSegs t') := by
      simp
    rw [hshape]
    rw [List.splitOnP_first (fun x => x == sep) a (fun x hx => by
        simp only [beq_iff_eq]
        intro hxs
        exact ha (hxs ▸ hx)) sep (by simp) (b ++ pathOfSegs t')]
    rw [ih b hb ht']

/-- Splitting a nonempty canonical path on the separator yields a leading
empty component followed by the segments, exactly what the walk consumes. -/
theorem splitSep_pathOfSegs {a : Str} {t : List Str}
    (h : ∀ n ∈ a :: t, sep ∉ n) :
    splitSep (pathOfSegs (a :: t)) = [] :: a :: t := by
  have ha : sep ∉ a := h a (List.mem_cons_self _ _)
  have ht : ∀ n ∈ t, sep ∉ n := fun n hn => h n (List.mem_cons_of_mem _ hn)
  rw [pathOfSegs_cons]
  have hshape : (sep :: a) ++ pathOfSegs t = sep :: (a ++ pathOfSegs t) := rfl
  rw [hshape]
  unfold splitSep List.splitOn
  rw [List.splitOnP_cons]
  rw [if_pos (by simp)]
  rw [splitOnP_append_pathOfSegs t a ha ht]

/-- Re-walking a canonical suffix with empty `seen` keeps every segment
literally: the output is the joined path and `seen` stays empty. -/
theorem goStep_walk (fs : FS) (strict : Bool)
    (recur : Seen → Str → Str → Except RErr (Str × Seen)) :
    ∀ (segs pre : List Str), (∀ n ∈ pre ++ segs, goodSeg n) →
      (∀ i < segs.length,
        keepFails fs strict (pathOfSegs (pre ++ segs.take (i + 1))) = true) →
      goStep fs strict recur [] (pathOfSegs pre) segs
        = .ok (pathOfSegs (pre ++ segs), []) := by
  intro segs
  induction segs with
  | nil =>
    intro pre _ _
    rw [goStep]
    simp
  | cons n ns ih =>
    intro pre hgood hpre
    have hgoodn : goodSeg n := hgood n (by simp)
    obtain ⟨hne, hdot, hdots, hnsep⟩ := hgoodn
    have hpregood : ∀ m ∈ pre, goodSeg m := fun m hm => hgood m (by simp [hm])
    have happ : appendName (pathOfSegs pre) n = pathOfSegs (pre ++ [n]) :=
      appendName_pathOfSegs hpregood n
    have hkeep0 : keepFails fs strict (pathOfSegs (pre ++ [n])) = true := by
      have h0 := hpre 0 (by simp)
      simpa using h0
    obtain ⟨e, hread, hcond⟩ :
        ∃ e, readlink fs (pathOfSegs (pre ++ [n])) = .error e ∧
          ¬(e ≠ EINVAL ∧ strict = true) := by
      unfold keepFails at hkeep0
      cases hr : readlink fs (pathOfSegs (pre ++ [n])) with
      | ok tgt => rw [hr] at hkeep0; cases hkeep0
      | error e =>
        rw [hr] at hkeep0
        refine ⟨e, rfl, ?_⟩
        rintro ⟨hne', hstrict⟩
        rw [hstrict] at hkeep0
        simp only [Bool.not_true, Bool.false_or, decide_eq_true_eq] at hkeep0
        exact hne' hkeep0
    rw [goStep]
    rw [if_neg (by
      rintro (h' | h')
      · exact hne h'
      · exact hdot h')]
    rw [if_neg hdots]
    simp only [happ, List.lookup_nil, hread, if_neg hcond]
    have := ih (pre ++ [n]) (by
      intro m hm
      apply hgood
      simp only [List.append_assoc, List.singleton_append] at hm
      exact hm) (by
      intro i hi
      have h' := hpre (i + 1) (by simpa using Nat.succ_lt_succ hi)
      have hshape : pre ++ (n :: ns).take (i + 1 + 1) = (pre ++ [n]) ++ ns.take (i + 1) := by
        simp [List.take_succ_cons]
      rw [hshape] at h'
      exact h')
    rw [this]
    have hshape2 : (pre ++ [n]) ++ ns = pre ++ n :: ns := by simp
    rw [hshape2]

/-- A canonical-form string (with the empty string promoted to the root
separator, as `resolve` does) is a fixed point of `resolveTop`. -/
theorem resolveTop_NF_fix (fs : FS) (strict : Bool) {r : Str}
    (h : NF fs strict r) :
    resolveTop fs strict (if r = [] then [sep] else r)
      = .ok (if r = [] then [sep] else r) := by
  obtain ⟨segs, rfl, hgood, hpre⟩ := h
  cases segs with
  | nil =>
    have h0 : pathOfSegs ([] : List Str) = ([] : Str) := rfl
    have hsplit : splitSep [sep] = [[], []] := rfl
    rw [h0]
    simp [resolveTop, resolveRec, goStep, hsplit, startsWithSep, sep]
  | cons a t =>
    rw [if_neg (pathOfSegs_cons_ne_nil a t)]
    have hnosep : ∀ n ∈ a :: t, sep ∉ n := by
      intro n hn
      obtain ⟨-, -, -, hs⟩ := hgood n hn
      exact hs
    have hstart : startsWithSep (pathOfSegs (a :: t)) = true :=
      startsWithSep_pathOfSegs a t
    have hwalk := goStep_walk fs strict
      (resolveRec fs strict fs.symlinks.length) (a :: t) []
      (by intro n hn; exact hgood n (by simpa using hn))
      (by intro i hi; simpa using hpre i hi)
    simp only [List.nil_append] at hwalk
    have hrun : resolveRec fs strict (fs.symlinks.length + 1) []
        (if startsWithSep (pathOfSegs (a :: t)) then [] else fs.cwd)
        (pathOfSegs (a :: t)) = .ok (pathOfSegs (a :: t), []) := by
      rw [resolveRec]
      simp only [hstart, if_true]
      rw [splitSep_pathOfSegs hnosep]
      rw [goStep]
      rw [if_pos (Or.inl rfl)]
      have h0 : pathOfSegs ([] : List Str) = ([] : Str) := rfl
      rw [← h0]
      exact hwalk
    unfold resolveTop
    simp only [hrun]
    rw [if_neg (pathOfSegs_cons_ne_nil a t)]

/-- C6: resolution is idempotent.  If `resolve(p)` succeeds with output `s`
(and the `getcwd()` seed used for a relative `p` is itself canonical — the
POSIX guarantee the source's `getcwd` NOTE relies on), then `resolve(s)`
succeeds and returns `s` unchanged: `resolve(resolve(p)) = resolve(p)` on an
unchanged filesystem. -/
theorem claim6_resolve_idempotent (fs : FS) (strict : Bool) (p s : Str)
    (hbase : NF fs strict (if startsWithSep p then [] else fs.cwd))
    (h : resolveTop fs strict p = .ok s) :
    resolveTop fs strict s = .ok s := by
  unfold resolveTop at h
  cases hres : resolveRec fs strict (fs.symlinks.length + 1) []
      (if startsWithSep p then [] else fs.cwd) p with
  | error e =>
    simp only [hres] at h
    cases h
  | ok pr =>
    obtain ⟨r, seen'⟩ := pr
    simp only [hres] at h
    have hs' : s = if r = [] then [sep] else r := by
      cases h
      rfl
    obtain ⟨hNF, -⟩ := resolveRec_NF fs strict (fs.symlinks.length + 1) []
      (if startsWithSep p then [] else fs.cwd) p r seen'
      (SeenNF_nil fs strict) hbase hres
    rw [hs']
    exact resolveTop_NF_fix fs strict hNF

/-- Witness for C6: `/l` is a symlink to `/d`; resolving `/l` gives `/d`,
and resolving that output returns it unchanged. -/
theorem claim6_witness :
    resolveTop ⟨[(['/', 'l'], ['/', 'd'])], [], []⟩ false ['/', 'd']
      = .ok ['/', 'd'] :=
  claim6_resolve_idempotent ⟨[(['/', 'l'], ['/', 'd'])], [], []⟩ false
    ['/', 'l'] ['/', 'd']
    (NF_nil _ _)
    rfl

/-- In non-strict mode the walk can only fail with the loop error (or by
exhausting the explicit budget): the `raise` of an `OSError` is guarded by
`strict`. -/
theorem goStep_no_os_aux (fs : FS)
    (recur : Seen → Str → Str → Except RErr (Str × Seen))
    (hrec : ∀ seen path rest e, recur seen path rest ≠ .error (.os e)) :
    ∀ names seen path e,
      goStep fs false recur seen path names ≠ .error (.os e) := by
  intro names
  induction names with
  | nil =>
    intro seen path e h
    rw [goStep] at h
    cases h
  | cons name names ih =>
    intro seen path e h
    rw [goStep] at h
    by_cases h1 : name = [] ∨ name = ['.']
    · rw [if_pos h1] at h
      exact ih seen path e h
    · rw [if_neg h1] at h
      by_cases h2 : name = ['.', '.']
      · rw [if_pos h2] at h
        exact ih seen (rpartBefore path) e h
      · rw [if_neg h2] at h
        cases hlook : seen.lookup (appendName path name) with
        | some ov =>
          cases ov with
          | some v =>
            simp only [hlook] at h
            exact ih seen v e h
          | none =>
            simp only [hlook] at h
            cases h
        | none =>
          simp only [hlook] at h
          cases hread : readlink fs (appendName path name) with
          | error e' =>
            simp only [hread] at h
            rw [if_neg (by
              rintro ⟨-, hfalse⟩
              cases hfalse)] at h
            exact ih seen (appendName path name) e h
          | ok target =>
            simp only [hread] at h
            cases hrecur : recur ((appendName path name, none) :: seen) path target with
            | error err =>
              simp only [hrecur] at h
              cases h
              exact hrec _ _ _ e hrecur
            | ok pr =>
              obtain ⟨p, seen2⟩ := pr
              simp only [hrecur] at h
              exact ih ((appendName path name, some p) :: seen2) p e h

/-- Non-strict `_resolve` never returns a propagated `OSError`, at any
budget. -/
theorem resolveRec_no_os (fs : FS) :
    ∀ fuel seen path rest e,
      resolveRec fs false fuel seen path rest ≠ .error (.os e) := by
  intro fuel
  induction fuel with
  | zero =>
    intro seen path rest e h
    rw [resolveRec] at h
    cases h
  | succ fuel ih =>
    intro seen path rest e h
    rw [resolveRec] at h
    exact goStep_no_os_aux fs (resolveRec fs false fuel)
      (fun s2 p2 r2 e2 => ih s2 p2 r2 e2) (splitSep rest) seen _ e h

/-- C9: non-strict resolution never raises an OS access error — every
`OSError` from `readlink` (including `ENOENT` for nonexistent segments) is
recovered by keeping the segment literally — and consequently a wholly
nonexistent, symlink-free, already-normalized absolute path resolves
without error to its own text. -/
theorem claim9_nonstrict_no_os_error :
    (∀ (fs : FS) (p : Str) (e : Nat),
      resolveTop fs false p ≠ .error (.os e)) ∧
    (∀ (fs : FS) (segs : List Str), segs ≠ [] →
      (∀ n ∈ segs, goodSeg n) →
      (∀ i < segs.length,
        ∃ e, readlink fs (pathOfSegs (segs.take (i + 1))) = .error e) →
      resolveTop fs false (pathOfSegs segs) = .ok (pathOfSegs segs)) := by
  constructor
  · intro fs p e h
    unfold resolveTop at h
    cases hres : resolveRec fs false (fs.symlinks.length + 1) []
        (if startsWithSep p then [] else fs.cwd) p with
    | error e' =>
      simp only [hres] at h
      cases h
      exact resolveRec_no_os fs _ _ _ _ e hres
    | ok pr =>
      obtain ⟨r, s'⟩ := pr
      simp only [hres] at h
      cases h
  · intro fs segs hne hgood hpre
    have hNF : NF fs false (pathOfSegs segs) := by
      refine ⟨segs, rfl, hgood, ?_⟩
      intro i hi
      obtain ⟨e, he⟩ := hpre i hi
      unfold keepFails
      rw [he]
      simp
    have hfix := resolveTop_NF_fix fs false hNF
    have hnil : pathOfSegs segs ≠ [] := by
      cases segs with
      | nil => exact absurd rfl hne
      | cons a t => exact pathOfSegs_cons_ne_nil a t
    rwa [if_neg hnil] at hfix

/-- Witness for C9 on the empty filesystem: resolving the nonexistent `/a`
non-strictly raises nothing and returns `/a`. -/
theorem claim9_witness :
    (resolveTop ⟨[], [], []⟩ false ['/', 'a'] ≠ .error (.os ENOENT)) ∧
    resolveTop ⟨[], [], []⟩ false ['/', 'a'] = .ok ['/', 'a'] := by
  constructor
  · exact claim9_nonstrict_no_os_error.1 ⟨[], [], []⟩ ['/', 'a'] ENOENT
  · exact claim9_nonstrict_no_os_error.2 ⟨[], [], []⟩ [['a']]
      (by decide) (by decide)
      (fun i hi => by
        have hi0 : i = 0 := by
          simp only [List.length_cons, List.length_nil] at hi
          omega
        subst hi0
        exact ⟨ENOENT, rfl⟩)

/-! ### Lemmas for the recursive-wildcard selector -/

theorem catchPerm_fst (r : GlobRes) : (catchPerm r).1 = r.1 := by
  obtain ⟨ys, err⟩ := r
  cases err with
  | none => rfl
  | some e => by_cases hp : isPermErr e = true <;> simp [catchPerm, hp]

/-- Descent chains extend downward through a qualifying child. -/
theorem DirDescend_cons {node c m : FsNode} {name : Str} {suffix : List Str}
    (hin : (name, c) ∈ entriesList (childEntries node))
    (hdir : entryIsDir c = .ok true) (hsym : entryIsSymlink c = false)
    (hdd : DirDescend c suffix m) :
    DirDescend node (name :: suffix) m := by
  induction hdd with
  | refl => exact DirDescend.step DirDescend.refl hin hdir hsym
  | step hd hin' hdir' hsym' ih =>
    exact DirDescend.step ih hin' hdir' hsym'

/-- Everything `_iterate_directories` yields is the parent itself or a
descendant reached exclusively through children that are directories and
not symlinks. -/
theorem iterDirs_mem (node : FsNode) :
    ∀ (path q : List Str) (m : FsNode), (q, m) ∈ (iterDirs path node).1 →
      ∃ suffix, q = path ++ suffix ∧ DirDescend node suffix m := by
  refine @FsNode.rec
    (fun nd => ∀ (path q : List Str) (m : FsNode), (q, m) ∈ (iterDirs path nd).1 →
      ∃ suffix, q = path ++ suffix ∧ DirDescend nd suffix m)
    (fun cs => ∀ (path q : List Str) (m : FsNode), (q, m) ∈ (iterDirsGo path cs).1 →
      ∃ (name : Str) (c : FsNode) (suffix : List Str),
        (name, c) ∈ entriesList cs ∧ entryIsDir c = .ok true ∧
        entryIsSymlink c = false ∧ q = path ++ name :: suffix ∧
        DirDescend c suffix m)
    ?_ ?_ ?_ ?_ ?_ ?_ node
  · -- dir cs
    intro cs hQ path q m hmem
    rw [iterDirs] at hmem
    rcases hgo : iterDirsGo path cs with ⟨ys, err⟩
    rw [hgo] at hmem
    have hmem' : (q, m) ∈ (path, FsNode.dir cs) :: ys := by
      cases err with
      | none => exact hmem
      | some e =>
        by_cases hp : isPermErr e = true
        · have h2 : (q, m) ∈ (if isPermErr e = true
              then ((path, FsNode.dir cs) :: ys, (none : Option Nat))
              else ((path, FsNode.dir cs) :: ys, some e)).1 := hmem
          rw [if_pos hp] at h2
          exact h2
        · have h2 : (q, m) ∈ (if isPermErr e = true
              then ((path, FsNode.dir cs) :: ys, (none : Option Nat))
              else ((path, FsNode.dir cs) :: ys, some e)).1 := hmem
          rw [if_neg hp] at h2
          exact h2
    rcases List.mem_cons.mp hmem' with heq | htail
    · injection heq with h1 h2
      subst h1
      subst h2
      exact ⟨[], by simp, DirDescend.refl⟩
    · obtain ⟨name, c, suffix, hin, hdir, hsym, rfl, hdd⟩ :=
        hQ path q m (by rw [hgo]; exact htail)
      exact ⟨name :: suffix, rfl, DirDescend_cons hin hdir hsym hdd⟩
  · -- file
    intro path q m hmem
    simp only [iterDirs, List.mem_singleton] at hmem
    injection hmem with h1 h2
    subst h1
    subst h2
    exact ⟨[], by simp, DirDescend.refl⟩
  · -- symlink
    intro b path q m hmem
    simp only [iterDirs, List.mem_singleton] at hmem
    injection hmem with h1 h2
    subst h1
    subst h2
    exact ⟨[], by simp, DirDescend.refl⟩
  · -- errEntry
    intro e path q m hmem
    simp only [iterDirs, List.mem_singleton] at hmem
    injection hmem with h1 h2
    subst h1
    subst h2
    exact ⟨[], by simp, DirDescend.refl⟩
  · -- nil
    intro path q m hmem
    rw [iterDirsGo] at hmem
    cases hmem
  · -- cons
    intro name child rest hP hQ path q m hmem
    rw [iterDirsGo] at hmem
    cases hread : entryIsDir child with
    | error e =>
      simp only [hread] at hmem
      by_cases hig : ignorableErr e = true
      · rw [if_pos hig] at hmem
        obtain ⟨name', c', suffix, hin, hdir, hsym, hq, hdd⟩ := hQ path q m hmem
        exact ⟨name', c', suffix, List.mem_cons_of_mem _ hin, hdir, hsym, hq, hdd⟩
      · rw [if_neg hig] at hmem
        cases hmem
    | ok d =>
      simp only [hread] at hmem
      by_cases hcond : (d && !entryIsSymlink child) = true
      · rw [if_pos hcond] at hmem
        rw [Bool.and_eq_true] at hcond
        obtain ⟨hd, hsym⟩ := hcond
        have hsym' : entryIsSymlink child = false := by simpa using hsym
        subst hd
        rcases hrec : iterDirs (path ++ [name]) child with ⟨ys, errC⟩
        simp only [hrec] at hmem
        have hys : ∀ x ∈ ys, x ∈ (iterDirs (path ++ [name]) child).1 := by
          intro x hx; rw [hrec]; exact hx
        cases errC with
        | some e =>
          obtain ⟨suffix, rfl, hdd⟩ := hP (path ++ [name]) q m (hys _ hmem)
          exact ⟨name, child, suffix, List.mem_cons_self _ _, hread,
            hsym', by simp, hdd⟩
        | none =>
          rcases hgo2 : iterDirsGo path rest with ⟨zs, e2⟩
          simp only [hgo2] at hmem
          rcases List.mem_append.mp hmem with hys' | hzs
          · obtain ⟨suffix, rfl, hdd⟩ := hP (path ++ [name]) q m (hys _ hys')
            exact ⟨name, child, suffix, List.mem_cons_self _ _, hread,
              hsym', by simp, hdd⟩
          · obtain ⟨name', c', suffix, hin, hdir, hsym', hq, hdd⟩ :=
              hQ path q m (by rw [hgo2]; exact hzs)
            exact ⟨name', c', suffix, List.mem_cons_of_mem _ hin, hdir, hsym', hq, hdd⟩
      · rw [if_neg hcond] at hmem
        obtain ⟨name', c', suffix, hin, hdir, hsym', hq, hdd⟩ := hQ path q m hmem
        exact ⟨name', c', suffix, List.mem_cons_of_mem _ hin, hdir, hsym', hq, hdd⟩

/-- The `yielded`-set filter emits no duplicates and nothing already
yielded. -/
theorem dedupAppend_spec :
    ∀ (ys yielded : List (List Str)),
      (dedupAppend yielded ys).Nodup ∧
      ∀ y ∈ dedupAppend yielded ys, y ∉ yielded := by
  intro ys
  induction ys with
  | nil =>
    intro yielded
    exact ⟨List.nodup_nil, by intro y hy; cases hy⟩
  | cons y ys ih =>
    intro yielded
    rw [dedupAppend]
    by_cases hy : y ∈ yielded
    · rw [if_pos hy]
      exact ih yielded
    · rw [if_neg hy]
      obtain ⟨hnd, hnin⟩ := ih (y :: yielded)
      refine ⟨List.nodup_cons.mpr ⟨?_, hnd⟩, ?_⟩
      · intro hmem
        exact hnin y hmem (List.mem_cons_self _ _)
      · intro z hz
        rcases List.mem_cons.mp hz with rfl | hz'
        · exact hy
        · exact fun hzy => hnin z hz' (List.mem_cons_of_mem _ hzy)

/-- The recursive-wildcard driver yields no duplicates and nothing from its
`yielded` set. -/
theorem recurGo_nodup (f : List Str → FsNode → GlobRes) :
    ∀ (starts : List (List Str × FsNode)) (yielded : List (List Str))
      (errS : Option Nat),
      ((recurGo f yielded starts errS).1).Nodup ∧
      ∀ y ∈ (recurGo f yielded starts errS).1, y ∉ yielded := by
  intro starts
  induction starts with
  | nil =>
    intro yielded errS
    exact ⟨List.nodup_nil, by intro y hy; cases hy⟩
  | cons pn rest ih =>
    intro yielded errS
    obtain ⟨p, n⟩ := pn
    rw [recurGo]
    rcases hf : f p n with ⟨ys, errF⟩
    cases errF with
    | some e =>
      exact dedupAppend_spec ys yielded
    | none =>
      obtain ⟨hem_nd, hem_nin⟩ := dedupAppend_spec ys yielded
      rcases hrec : recurGo f (dedupAppend yielded ys ++ yielded) rest errS
        with ⟨zs, e2⟩
      obtain ⟨hzs_nd, hzs_nin⟩ := ih (dedupAppend yielded ys ++ yielded) errS
      rw [hrec] at hzs_nd hzs_nin
      simp only [hrec]
      constructor
      · refine List.Nodup.append hem_nd hzs_nd ?_
        intro a ha hazs
        exact hzs_nin a hazs (List.mem_append.mpr (Or.inl ha))
      · intro y hy
        rcases List.mem_append.mp hy with h1 | h2
        · exact hem_nin y h1
        · exact fun hyy =>
            hzs_nin y h2 (List.mem_append.mpr (Or.inr hyy))

/-- The enumeration `_iterate_directories` yields its parent first (the `**` expansion of
zero levels). -/
theorem iterDirs_head (path : List Str) (node : FsNode) :
    ((iterDirs path node).1).head? = some (path, node) := by
  cases node with
  | dir cs =>
    rw [iterDirs]
    rcases hgo : iterDirsGo path cs with ⟨ys, err⟩
    cases err with
    | none => rfl
    | some e =>
      by_cases hp : isPermErr e = true
      · simp only [if_pos hp]
        rfl
      · simp only [if_neg hp]
        rfl
  | file => rfl
  | symlink b => rfl
  | errEntry e => rfl

/-- The deduplicated emission is a sublist of the raw emission. -/
theorem dedupAppend_subset :
    ∀ (ys yielded : List (List Str)), ∀ y ∈ dedupAppend yielded ys, y ∈ ys := by
  intro ys
  induction ys with
  | nil => intro yielded y hy; cases hy
  | cons z zs ih =>
    intro yielded y hy
    rw [dedupAppend] at hy
    by_cases hz : z ∈ yielded
    · rw [if_pos hz] at hy
      exact List.mem_cons_of_mem _ (ih yielded y hy)
    · rw [if_neg hz] at hy
      rcases List.mem_cons.mp hy with rfl | hy'
      · exact List.mem_cons_self _ _
      · exact List.mem_cons_of_mem _ (ih (z :: yielded) y hy')

/-- With a terminating successor, the recursive-wildcard driver yields only
starting points produced by `_iterate_directories`. -/
theorem recurGo_term_mem :
    ∀ (starts : List (List Str × FsNode)) (yielded : List (List Str))
      (errS : Option Nat) (p : List Str),
      p ∈ (recurGo (selectFrom .term) yielded starts errS).1 →
      ∃ n, (p, n) ∈ starts := by
  intro starts
  induction starts with
  | nil => intro yielded errS p hp; cases hp
  | cons pn rest ih =>
    intro yielded errS p hp
    obtain ⟨p0, n0⟩ := pn
    rw [recurGo] at hp
    have hterm : selectFrom .term p0 n0 = ([p0], none) := rfl
    rcases hrec : recurGo (selectFrom .term)
        (dedupAppend yielded [p0] ++ yielded) rest errS with ⟨zs, e2⟩
    simp only [hterm, hrec] at hp
    rcases List.mem_append.mp hp with hem | hzs
    · have := dedupAppend_subset [p0] yielded p hem
      rcases List.mem_singleton.mp this with rfl
      exact ⟨n0, List.mem_cons_self _ _⟩
    · obtain ⟨n, hn⟩ := ih (dedupAppend yielded [p0] ++ yielded) errS p
        (by rw [hrec]; exact hzs)
      exact ⟨n, List.mem_cons_of_mem _ hn⟩

/-- Descent through directory-and-not-symlink children only reaches real
directories, when it starts at one. -/
theorem DirDescend_isDir {root m : FsNode} {p : List Str}
    (hroot : IsDirNode root) (h : DirDescend root p m) : IsDirNode m := by
  induction h with
  | refl => exact hroot
  | step hd hin hdir hsym ih =>
    rename_i c
    cases c with
    | dir cs => trivial
    | file => cases hdir
    | symlink b => cases hsym
    | errEntry e => cases hdir

/-- The compiler `_make_selector` rejects a fused `**` wherever it occurs in the
component list: the chain is built eagerly, so compilation fails before any
selection happens. -/
theorem makeSelector_fused :
    ∀ parts : List Str,
      (∃ p ∈ parts, containsStarStar p = true ∧ p ≠ ['*', '*']) →
      makeSelector parts = .error .invalidPattern := by
  intro parts
  induction parts with
  | nil =>
    rintro ⟨p, hp, -⟩
    cases hp
  | cons pat rest ih =>
    rintro ⟨p, hp, hfused, hne⟩
    rcases List.mem_cons.mp hp with rfl | hrest
    · cases rest with
      | nil =>
        have hstep : makeSelector [p] =
            if p = ['*', '*'] then .ok (.recur false .term)
            else if containsStarStar p then .error .invalidPattern
            else if isWildcardPattern p then .ok (.wildcard (fnMatch p) false .term)
            else .ok (.precise p false .term) := rfl
        rw [hstep, if_neg hne, if_pos hfused]
      | cons q r =>
        have hstep : makeSelector (p :: q :: r) =
            if p = ['*', '*'] then
              (match makeSelector (q :: r) with
               | .error e => .error e
               | .ok s => .ok (.recur true s))
            else if containsStarStar p then .error .invalidPattern
            else if isWildcardPattern p then
              (match makeSelector (q :: r) with
               | .error e => .error e
               | .ok s => .ok (.wildcard (fnMatch p) true s))
            else
              (match makeSelector (q :: r) with
               | .error e => .error e
               | .ok s => .ok (.precise p true s)) := rfl
        rw [hstep, if_neg hne, if_pos hfused]
    · have hres : makeSelector rest = .error .invalidPattern :=
        ih ⟨p, hrest, hfused, hne⟩
      have hrestne : rest ≠ [] := by
        intro h; subst h; cases hrest
      obtain ⟨q, r, rfl⟩ : ∃ q r, rest = q :: r := by
        cases rest with
        | nil => exact absurd rfl hrestne
        | cons q r => exact ⟨q, r, rfl⟩
      have hstep : makeSelector (pat :: q :: r) =
          if pat = ['*', '*'] then
            (match makeSelector (q :: r) with
             | .error e => .error e
             | .ok s => .ok (.recur true s))
          else if containsStarStar pat then .error .invalidPattern
          else if isWildcardPattern pat then
            (match makeSelector (q :: r) with
             | .error e => .error e
             | .ok s => .ok (.wildcard (fnMatch pat) true s))
          else
            (match makeSelector (q :: r) with
             | .error e => .error e
             | .ok s => .ok (.precise pat true s)) := rfl
      rw [hstep]
      by_cases h1 : pat = ['*', '*']
      · rw [if_pos h1, hres]
      · rw [if_neg h1]
        by_cases h2 : containsStarStar pat = true
        · rw [if_pos h2]
        · rw [if_neg h2]
          by_cases h3 : isWildcardPattern pat = true
          · rw [if_pos h3, hres]
          · rw [if_neg h3, hres]

/-- C3 counterexample: `rglob` with the empty pattern raises no pattern
error at all — it compiles to a bare `**` and runs, yielding the root — so
"both glob and rglob validate that the pattern is non-empty" is false. -/
theorem claim3_counterexample :
    rglobRun (.dir .nil) [] = .ok ([[]], none) := rfl

/-- C3 amended: `glob` validates both emptiness and the drive/root prefix
before compiling, and validation errors are independent of the filesystem
(no directory is listed); `rglob` validates only the drive/root prefix —
an empty pattern is accepted and treated as a bare `**`. -/
theorem claim3_amended_pattern_validation :
    (∀ (root : FsNode) (pattern : Str), pattern = [] →
      globRun root pattern = .error .emptyPattern) ∧
    (∀ (root : FsNode) (pattern : Str), (parseParts pattern).1 ≠ [] →
      globRun root pattern = .error .nonRelative ∧
      rglobRun root pattern = .error .nonRelative) ∧
    (∀ root : FsNode,
      rglobRun root [] = .ok (selectTop (.recur false .term) root)) := by
  refine ⟨?_, ?_, fun root => rfl⟩
  · intro root pattern hpat
    subst hpat
    rfl
  · intro root pattern hroot
    have hpat : pattern ≠ [] := by
      intro h
      subst h
      exact hroot (by rfl)
    constructor
    · unfold globRun globParse
      rw [if_neg hpat]
      rcases hpp : parseParts pattern with ⟨rt, parts⟩
      rw [hpp] at hroot
      simp only [hpp]
      rw [if_pos hroot]
    · unfold rglobRun rglobParse
      rcases hpp : parseParts pattern with ⟨rt, parts⟩
      rw [hpp] at hroot
      simp only [hpp]
      rw [if_pos hroot]

/-- Witness for the amended C3 at concrete patterns. -/
theorem claim3_witness :
    globRun (.dir .nil) [] = .error .emptyPattern ∧
    globRun (.dir .nil) ['/', 'a'] = .error .nonRelative ∧
    rglobRun (.dir .nil) ['/', 'a'] = .error .nonRelative ∧
    rglobRun (.dir .nil) [] = .ok ([[]], none) := by
  refine ⟨claim3_amended_pattern_validation.1 (.dir .nil) [] rfl, ?_, ?_, ?_⟩
  · exact (claim3_amended_pattern_validation.2.1 (.dir .nil) ['/', 'a']
      (by decide)).1
  · exact (claim3_amended_pattern_validation.2.1 (.dir .nil) ['/', 'a']
      (by decide)).2
  · exact (claim3_amended_pattern_validation.2.2 (.dir .nil)).trans rfl

/-- C4: the recursive-wildcard expansion terminates on every finite
directory tree, even when a symlink points back at an ancestor: it yields
the candidate directory itself first, everything it yields is reached
through a chain of children that are directories *and not symlinks* (so
`**` never descends through a symlink), and the selector's yielded-set
deduplication makes the result duplicate-free. -/
theorem claim4_recursive_descent_terminates :
    (∀ (path : List Str) (node : FsNode),
      ((iterDirs path node).1).head? = some (path, node)) ∧
    (∀ (path : List Str) (node : FsNode) (q : List Str) (m : FsNode),
      (q, m) ∈ (iterDirs path node).1 →
      ∃ suffix, q = path ++ suffix ∧ DirDescend node suffix m) ∧
    (∀ (d : Bool) (succ : Sel) (path : List Str) (node : FsNode),
      ((selectFrom (.recur d succ) path node).1).Nodup) := by
  refine ⟨iterDirs_head, fun path node => iterDirs_mem node path, ?_⟩
  intro d succ path node
  rcases hid : iterDirs path node with ⟨starts, errS⟩
  have hsel : selectFrom (.recur d succ) path node
      = catchPerm (recurGo (selectFrom succ) [] starts errS) := by
    simp only [selectFrom, hid]
  rw [hsel, catchPerm_fst]
  exact (recurGo_nodup (selectFrom succ) starts [] errS).1

/-- Witness for C4 on a tree with a directory child and a symlink child:
the listing starts with the parent, the directory child is reached by a
qualifying chain, and the selection is duplicate-free. -/
theorem claim4_witness :
    (((iterDirs []
        (.dir (.cons ['a'] (.dir .nil) (.cons ['s'] (.symlink true) .nil)))).1).head?
      = some ([], .dir (.cons ['a'] (.dir .nil) (.cons ['s'] (.symlink true) .nil)))) ∧
    (∃ suffix, [['a']] = [] ++ suffix ∧
      DirDescend (.dir (.cons ['a'] (.dir .nil) (.cons ['s'] (.symlink true) .nil)))
        suffix (.dir .nil)) ∧
    ((selectFrom (.recur false .term) []
        (.dir (.cons ['a'] (.dir .nil) (.cons ['s'] (.symlink true) .nil)))).1).Nodup := by
  refine ⟨claim4_recursive_descent_terminates.1 [] _, ?_, ?_⟩
  · exact claim4_recursive_descent_terminates.2.1 [] _ [['a']] (.dir .nil)
      (by decide)
  · exact claim4_recursive_descent_terminates.2.2 false .term [] _

/-- C5: a pattern component fusing `**` with other characters (`"a**b"`,
`"**foo"`) makes compilation fail with the pattern-syntax error, wherever
the component sits in the chain, and the whole glob call fails with that
error uniformly in the filesystem — no directory access can have occurred. -/
theorem claim5_fused_starstar_rejected :
    (∀ parts : List Str,
      (∃ p ∈ parts, containsStarStar p = true ∧ p ≠ ['*', '*']) →
      makeSelector parts = .error .invalidPattern) ∧
    (∀ (root : FsNode) (pattern : Str) (parts : List Str),
      globParse pattern = .ok parts →
      (∃ p ∈ parts, containsStarStar p = true ∧ p ≠ ['*', '*']) →
      globRun root pattern = .error .invalidPattern) := by
  refine ⟨makeSelector_fused, ?_⟩
  intro root pattern parts hparse hfused
  unfold globRun
  simp only [hparse, makeSelector_fused parts hfused]

/-- Witness for C5: compiling `"a**b"` fails, on any tree. -/
theorem claim5_witness :
    makeSelector [['a', '*', '*', 'b']] = .error .invalidPattern ∧
    globRun (.dir .nil) ['a', '*', '*', 'b'] = .error .invalidPattern := by
  constructor
  · exact claim5_fused_starstar_rejected.1 [['a', '*', '*', 'b']] (by decide)
  · exact claim5_fused_starstar_rejected.2 (.dir .nil) ['a', '*', '*', 'b']
      [['a', '*', '*', 'b']] rfl (by decide)

/-- C8 counterexample: in a wildcard selection with `dironly` set, an entry
whose classification raises `PermissionError` (EACCES) does **not** surface
to the glob caller: the re-raised error is caught by the selector's own
`except PermissionError: return`, so the call returns successfully (and
silently drops the rest of the directory — here the `y/y` match that would
otherwise be yielded). -/
theorem claim8_counterexample :
    globRun
      (.dir (.cons ['x'] (.errEntry EACCES)
        (.cons ['y'] (.dir (.cons ['y'] (.dir .nil) .nil)) .nil)))
      ['*', '/', 'y']
      = .ok ([], none) := rfl

/-- C8 amended: under `dironly`, an entry whose classification fails with an
ignorable errno is merely skipped; any other classification error aborts the
listing — but a `PermissionError` among them is then swallowed by the
selector's own outer handler (the branch yields nothing more and no error
reaches the caller), while non-permission, non-ignorable errors do
propagate. -/
theorem claim8_amended_permission_swallowed :
    (∀ (m : Str → Bool) (succ : Sel) (path : List Str) (name : Str)
      (e : Nat) (rest : Entries), ignorableErr e = true →
      wildGo m true (selectFrom succ) path (.cons name (.errEntry e) rest)
        = wildGo m true (selectFrom succ) path rest) ∧
    (∀ (m : Str → Bool) (succ : Sel) (path : List Str) (name : Str)
      (e : Nat) (rest : Entries), ignorableErr e = false →
      wildGo m true (selectFrom succ) path (.cons name (.errEntry e) rest)
        = ([], some e)) ∧
    (∀ (m : Str → Bool) (succ : Sel) (path : List Str) (name : Str)
      (e : Nat) (rest : Entries),
      ignorableErr e = false → isPermErr e = true →
      selectFrom (.wildcard m true succ) path
        (.dir (.cons name (.errEntry e) rest)) = ([], none)) ∧
    (∀ (m : Str → Bool) (succ : Sel) (path : List Str) (name : Str)
      (e : Nat) (rest : Entries),
      ignorableErr e = false → isPermErr e = false →
      selectFrom (.wildcard m true succ) path
        (.dir (.cons name (.errEntry e) rest)) = ([], some e)) := by
  have hgo : ∀ (m : Str → Bool) (succ : Sel) (path : List Str) (name : Str)
      (e : Nat) (rest : Entries),
      wildGo m true (selectFrom succ) path (.cons name (.errEntry e) rest)
        = if ignorableErr e = true then wildGo m true (selectFrom succ) path rest
          else ([], some e) := by
    intro m succ path name e rest
    rfl
  refine ⟨?_, ?_, ?_, ?_⟩
  · intro m succ path name e rest hig
    rw [hgo, if_pos hig]
  · intro m succ path name e rest hig
    rw [hgo, if_neg (by rw [hig]; exact Bool.false_ne_true)]
  · intro m succ path name e rest hig hperm
    have hsel : selectFrom (.wildcard m true succ) path
        (.dir (.cons name (.errEntry e) rest))
        = catchPerm (wildGo m true (selectFrom succ) path
            (.cons name (.errEntry e) rest)) := rfl
    rw [hsel, hgo, if_neg (by rw [hig]; exact Bool.false_ne_true)]
    simp [catchPerm, hperm]
  · intro m succ path name e rest hig hperm
    have hsel : selectFrom (.wildcard m true succ) path
        (.dir (.cons name (.errEntry e) rest))
        = catchPerm (wildGo m true (selectFrom succ) path
            (.cons name (.errEntry e) rest)) := rfl
    rw [hsel, hgo, if_neg (by rw [hig]; exact Bool.false_ne_true)]
    simp [catchPerm, hperm]

/-- Witness for the amended C8 at concrete errnos (ENOENT ignorable, EACCES
permission, EIO = 5 neither). -/
theorem claim8_witness :
    (wildGo (fun _ => true) true (selectFrom .term) []
        (.cons ['x'] (.errEntry ENOENT) .nil)
      = wildGo (fun _ => true) true (selectFrom .term) [] .nil) ∧
    (selectFrom (.wildcard (fun _ => true) true .term) []
        (.dir (.cons ['x'] (.errEntry EACCES) .nil)) = ([], none)) ∧
    (selectFrom (.wildcard (fun _ => true) true .term) []
        (.dir (.cons ['x'] (.errEntry 5) .nil)) = ([], some 5)) := by
  refine ⟨?_, ?_, ?_⟩
  · exact claim8_amended_permission_swallowed.1 (fun _ => true) .term []
      ['x'] ENOENT .nil (by decide)
  · exact claim8_amended_permission_swallowed.2.2.1 (fun _ => true) .term []
      ['x'] EACCES .nil (by decide) (by decide)
  · exact claim8_amended_permission_swallowed.2.2.2 (fun _ => true) .term []
      ['x'] 5 .nil (by decide) (by decide)

/-- C10: `glob(root, "**")` on a directory root yields only directories:
every yielded path is the root itself or reached through a chain of
non-symlink directory children, so a regular file is never yielded when
`**` is the final component. -/
theorem claim10_starstar_yields_only_dirs :
    ∀ (root : FsNode), IsDirNode root →
      ∀ (ps : List (List Str)) (err : Option Nat),
        globRun root ['*', '*'] = .ok (ps, err) →
        ∀ p ∈ ps, ∃ m, DirDescend root p m ∧ IsDirNode m := by
  intro root hroot ps err hrun p hp
  obtain ⟨cs, rfl⟩ : ∃ cs, root = .dir cs := by
    cases root with
    | dir cs => exact ⟨cs, rfl⟩
    | file => cases hroot
    | symlink b => cases hroot
    | errEntry e => cases hroot
  have hrun' : globRun (.dir cs) ['*', '*']
      = .ok (selectFrom (.recur false .term) [] (.dir cs)) := rfl
  rw [hrun'] at hrun
  have heq : selectFrom (.recur false .term) [] (.dir cs) = (ps, err) := by
    injection hrun
  have hp' : p ∈ (selectFrom (.recur false .term) [] (.dir cs)).1 := by
    rw [heq]
    exact hp
  rcases hid : iterDirs [] (.dir cs) with ⟨starts, errS⟩
  have hsel : selectFrom (.recur false .term) [] (.dir cs)
      = catchPerm (recurGo (selectFrom .term) [] starts errS) := by
    simp only [selectFrom, hid]
  rw [hsel, catchPerm_fst] at hp'
  obtain ⟨n, hn⟩ := recurGo_term_mem starts [] errS p hp'
  have hn' : (p, n) ∈ (iterDirs [] (.dir cs)).1 := by
    rw [hid]
    exact hn
  obtain ⟨suffix, heqp, hdd⟩ := iterDirs_mem (.dir cs) [] p n hn'
  simp only [List.nil_append] at heqp
  subst heqp
  exact ⟨n, hdd, DirDescend_isDir (show IsDirNode (.dir cs) from trivial) hdd⟩

/-- Witness for C10: a root with a subdirectory and a file; the yielded
path `a` leads to a directory. -/
theorem claim10_witness :
    ∃ m, DirDescend (.dir (.cons ['a'] (.dir .nil) (.cons ['f'] .file .nil)))
      [['a']] m ∧ IsDirNode m :=
  claim10_starstar_yields_only_dirs
    (.dir (.cons ['a'] (.dir .nil) (.cons ['f'] .file .nil))) trivial
    [[], [['a']]] none rfl [['a']] (by decide)

end Aiopath
